import Mathlib

/-!
Shallow embedding of the `akioi-2048` move engine (`src/lib.rs`, `src/board.rs`):
a 2048-style game on a 4×4 board of integers, where positive cells are value
tiles (powers of two) and negative cells `-1, -2, -4` are multiplier tiles.
The Rust functions `rotate`, `slide_column`, `try_merge`, `single_step`,
`spawn_tile`, `step` and `validate_board` are translated one-for-one; the
random generator of `spawn_tile` is made explicit as a position choice
(a natural number, reduced modulo the number of empty cells, mirroring
`choose`) and a rational draw `p` (mirroring the `f64` drawn by `rng.random()`
and compared against the fixed thresholds).
-/

namespace Akioi

/-- 4×4 board grid type (`type Board = [[i32; 4]; 4]`). -/
def Board := Fin 4 → Fin 4 → Int

instance : DecidableEq Board :=
  inferInstanceAs (DecidableEq (Fin 4 → Fin 4 → Int))

/-- Internal move direction enum (`enum Action`). -/
inductive Action where
  | Up
  | Down
  | Left
  | Right
deriving DecidableEq

/-- `rotate`: rotate board 90°×k clockwise.  `r[j][3-i] = b[i][j]` for k=1,
`r[3-i][3-j] = b[i][j]` for k=2, `r[3-j][i] = b[i][j]` for k=3; the
unreachable catch-all returns the all-zero scratch array `r`, as in Rust. -/
def rotate (b : Board) (k : Nat) : Board :=
  match k % 4 with
  | 0 => b
  | 1 => fun x y => b (3 - y) x
  | 2 => fun x y => b (3 - x) (3 - y)
  | 3 => fun x y => b y (3 - x)
  | _ + 4 => fun _ _ => 0

/-- `try_merge`: determine and perform a merge, returning
`some (tile, score)` or `none`. -/
def try_merge (a b : Int) (adjacent : Bool) (below : List Int) :
    Option (Int × Int) :=
  if a > 0 ∧ b > 0 ∧ a = b ∧ a < 65536 then
    some (a + b, a + b)
  else if a < 0 ∧ b < 0 ∧ a = b ∧ a > -4 then
    some (a * 2, a * 2)
  else if a * b < 0 ∧ adjacent = true ∧
      (below.isEmpty = true ∨ ∀ v ∈ below, v ≠ 0) then
    let num := if a > 0 then a else b
    let mul := if a < 0 then a else b
    some (num * |mul|, num * |mul|)
  else
    none

/-- The while loop of `slide_column`, reading the column bottom-first.
`passed` holds the cells already consumed (the slice `col[r+1..4]` strictly
below the read pointer `r`), `rest` the cells still to read (cell `r` first).
The fuel argument bounds the number of iterations; `fuel = rest.length`
suffices since every iteration consumes at least one cell. -/
def slideRec : Nat → List Int → List Int → List Int × Int
  | 0, _, _ => ([], 0)
  | _ + 1, _, [] => ([], 0)
  | fuel + 1, passed, a :: rest' =>
    if a = 0 then
      -- skip empty cells
      slideRec fuel (a :: passed) rest'
    else
      -- find first non-zero above
      let zeros := rest'.takeWhile (· == 0)
      match rest'.dropWhile (· == 0) with
      | [] =>
        -- s < 0: no partner above, write the tile unchanged
        let res := slideRec fuel (a :: passed) rest'
        (a :: res.1, res.2)
      | b :: rest3 =>
        match try_merge a b zeros.isEmpty passed with
        | some (tile, add) =>
          -- write merged tile, resume strictly above the consumed pair
          let res := slideRec fuel (b :: (zeros ++ a :: passed)) rest3
          (tile :: res.1, res.2 + add)
        | none =>
          let res := slideRec fuel (a :: passed) rest'
          (a :: res.1, res.2)

/-- `slide_column`: process one column (index 0 = top, 3 = bottom), sliding
toward index 3.  The output array starts all-zero and is written bottom-up,
so cell `r` of the result is entry `3 - r` of the written list (default 0). -/
def slide_column (col : Fin 4 → Int) : (Fin 4 → Int) × Int :=
  let res := slideRec 4 [] [col 3, col 2, col 1, col 0]
  (fun r => res.1.getD (3 - (r : Nat)) 0, res.2)

/-- Rotation count for an action inside `single_step`:
Down ↦ 0, Up ↦ 2, Left ↦ 3, Right ↦ 1. -/
def rotOf : Action → Nat
  | .Down => 0
  | .Up => 2
  | .Left => 3
  | .Right => 1

/-- `single_step`: rotate, slide all four columns, rotate back; return
`(new_board, delta_score, victory?)`, no random tile spawn. -/
def single_step (board : Board) (action : Action) : Board × Int × Bool :=
  let rot := rotOf action
  let work := rotate board rot
  let work2 : Board := fun r c => (slide_column (fun i => work i c)).1 r
  let delta := (slide_column (fun i => work i 0)).2 +
    (slide_column (fun i => work i 1)).2 +
    (slide_column (fun i => work i 2)).2 +
    (slide_column (fun i => work i 3)).2
  let next := rotate work2 ((4 - rot) % 4)
  (next, delta, decide (∃ r c, next r c = 65536))

/-- `idx_to_action`: `[Up, Down, Left, Right][i]`. -/
def idx_to_action : Fin 4 → Action
  | 0 => .Up
  | 1 => .Down
  | 2 => .Left
  | 3 => .Right

/-- The empty-cell coordinate list gathered by `spawn_tile`, in row-major
scan order. -/
def empties (board : Board) : List (Fin 4 × Fin 4) :=
  ((List.finRange 4).map fun r =>
    ((List.finRange 4).filter fun c => board r c == 0).map fun c => (r, c)).flatten

/-- The assignment `board[r][c] = v` of `spawn_tile`, as a pure update. -/
def setCell (board : Board) (rc : Fin 4 × Fin 4) (v : Int) : Board :=
  fun r c => if r = rc.1 ∧ c = rc.2 then v else board r c

/-- `spawn_tile`: spawn a tile on an empty cell.  The generator is made
explicit: `choice` selects the position (`choose` picks uniformly, so every
index below the list length is possible; we take `choice % length`), and
`p` is the uniform draw in `[0,1)` compared against the weighted thresholds. -/
def spawn_tile (board : Board) (choice : Nat) (p : ℚ) : Board :=
  let es := empties board
  if es.isEmpty then board
  else
    let rc := es.getD (choice % es.length) (0, 0)
    let v : Int :=
      if p < 0.783 then 2
      else if p < 0.861 then 4
      else if p < 0.9728 then -1
      else -2
    setCell board rc v

/-- Direction code decoding in `step`: `0 = Down, 1 = Right, 2 = Up,
3 = Left`; anything else is the `direction must be 0-3` error. -/
def decodeDir : Nat → Option Action
  | 0 => some .Down
  | 1 => some .Right
  | 2 => some .Up
  | 3 => some .Left
  | _ + 4 => none

/-- Body of `step` after direction decoding: perform one logical step,
spawn a tile if the board changed, check failure, build the message. -/
def stepCore (board : Board) (action : Action) (choice : Nat) (p : ℚ) :
    Board × Int × Int :=
  let ss := single_step board action
  let moved : Bool := decide (ss.1 ≠ board)
  let next := if moved then spawn_tile ss.1 choice p else ss.1
  let dead : Bool := !moved &&
    decide (∀ d : Fin 4, (single_step next (idx_to_action d)).1 = next)
  let msg : Int := if ss.2.2 then 1 else if dead then -1 else 0
  (next, ss.2.1, msg)

/-- `step` on an already-converted board: `none` exactly when the direction
code is invalid. -/
def step (board : Board) (direction choice : Nat) (p : ℚ) :
    Option (Board × Int × Int) :=
  (decodeDir direction).map fun action => stepCore board action choice p

/-- Conversion of the raw Python matrix into a `Board`
(`board[r][c] = v` for each row/cell). -/
def listToBoard (raw : List (List Int)) : Board :=
  fun r c => (raw.getD r []).getD c 0

/-- Conversion of a `Board` back to the nested-list return value. -/
def boardToList (b : Board) : List (List Int) :=
  (List.finRange 4).map fun r => (List.finRange 4).map fun c => b r c

/-- The full `step` entry point on the raw Python argument: the 4×4 shape
check comes first (`board must be 4×4`), then the direction decoding
(`direction must be 0-3`), then the pure logic. -/
def stepRaw (raw : List (List Int)) (direction choice : Nat) (p : ℚ) :
    Except String (List (List Int) × Int × Int) :=
  if raw.length ≠ 4 ∨ ∃ row ∈ raw, row.length ≠ 4 then
    .error "board must be 4×4"
  else
    match step (listToBoard raw) direction choice p with
    | none => .error "direction must be 0-3"
    | some (b, delta, msg) => .ok (boardToList b, delta, msg)

/-- The positive tile domain of `validate_board` (`src/board.rs`): powers of
two in `[2, 65536]`. -/
def pow2List : List Int :=
  [2, 4, 8, 16, 32, 64, 128, 256, 512, 1024, 2048, 4096,
   8192, 16384, 32768, 65536]

/-- A single tile is valid: `0`, a power of two in `[2, 65536]`, or one of
`{-1, -2, -4}` (`validate_board` in `src/board.rs`). -/
def validTile (v : Int) : Prop :=
  v = 0 ∨ v ∈ pow2List ∨ v = -1 ∨ v = -2 ∨ v = -4

instance (v : Int) : Decidable (validTile v) := by
  unfold validTile; infer_instance

/-- Extended tile domain actually preserved by the engine: cross merges can
reach `131072 = 65536 × 2` and `262144 = 65536 × 4`. -/
def pow2ListExt : List Int := pow2List ++ [131072, 262144]

/-- Tile domain closed under one engine step (see `pow2ListExt`). -/
def validTileExt (v : Int) : Prop :=
  v = 0 ∨ v ∈ pow2ListExt ∨ v = -1 ∨ v = -2 ∨ v = -4

instance (v : Int) : Decidable (validTileExt v) := by
  unfold validTileExt; infer_instance

/-- A board all of whose cells are valid tiles. -/
def validBoard (b : Board) : Prop :=
  ∀ r c, validTile (b r c)

instance (b : Board) : Decidable (validBoard b) := by
  unfold validBoard; infer_instance

/-- Column constructor from a list (index 0 = top of the column). -/
def colOfList (l : List Int) : Fin 4 → Int :=
  fun r => l.getD (r : Nat) 0

/-- The all-empty board. -/
def board0 : Board := fun _ _ => 0

/-! ### Rotation lemmas -/

lemma rotate_mod (b : Board) (k : Nat) : rotate b (k % 4) = rotate b k := by
  have h : k % 4 % 4 = k % 4 := by omega
  unfold rotate
  rw [h]

lemma rotate_zero (b : Board) : rotate b 0 = b := rfl

lemma rotate_comp4 (b : Board) {j k : Nat} (hj : j < 4) (hk : k < 4) :
    rotate (rotate b j) k = rotate b ((j + k) % 4) := by
  interval_cases j <;> interval_cases k <;>
    · funext x y
      fin_cases x <;> fin_cases y <;> rfl

lemma rotate_comp (b : Board) (j k : Nat) :
    rotate (rotate b j) k = rotate b ((j + k) % 4) := by
  have h1 : (j % 4 + k % 4) % 4 = (j + k) % 4 := by omega
  calc rotate (rotate b j) k = rotate (rotate b (j % 4)) (k % 4) := by
        rw [rotate_mod, rotate_mod]
    _ = rotate b ((j % 4 + k % 4) % 4) :=
        rotate_comp4 b (Nat.mod_lt _ (by norm_num)) (Nat.mod_lt _ (by norm_num))
    _ = rotate b ((j + k) % 4) := by rw [h1]

lemma rotate_inv (b : Board) {k : Nat} (hk : k < 4) :
    rotate (rotate b ((4 - k) % 4)) k = b := by
  rw [rotate_comp]
  have h : ((4 - k) % 4 + k) % 4 = 0 := by omega
  rw [h, rotate_zero]

lemma rotate_pred {P : Int → Prop} (b : Board) (k : Nat) (h0 : P 0)
    (hb : ∀ i j, P (b i j)) : ∀ x y, P (rotate b k x y) := by
  intro x y
  have h4 : k % 4 < 4 := Nat.mod_lt _ (by norm_num)
  rcases hm : k % 4 with _ | _ | _ | _ | n
  · unfold rotate; rw [hm]; exact hb x y
  · unfold rotate; rw [hm]; exact hb (3 - y) x
  · unfold rotate; rw [hm]; exact hb (3 - x) (3 - y)
  · unfold rotate; rw [hm]; exact hb y (3 - x)
  · omega

/-! ### Tile-domain and merge lemmas -/

lemma pow2List_pos : ∀ x ∈ pow2List, 0 < x := by decide

lemma validTile_pos {a : Int} (h : validTile a) (hpos : 0 < a) :
    a ∈ pow2List := by
  rcases h with rfl | h | rfl | rfl | rfl
  · omega
  · exact h
  · omega
  · omega
  · omega

lemma validTile_neg {a : Int} (h : validTile a) (hneg : a < 0) :
    a = -1 ∨ a = -2 ∨ a = -4 := by
  rcases h with rfl | h | rfl | rfl | rfl
  · omega
  · exact absurd (pow2List_pos a h) (by omega)
  · exact Or.inl rfl
  · exact Or.inr (Or.inl rfl)
  · exact Or.inr (Or.inr rfl)

lemma value_merge_valid {a : Int} (h : a ∈ pow2List) (hlt : a < 65536) :
    a + a ∈ pow2ListExt := by
  fin_cases h <;> first | (exfalso; omega) | decide

lemma cross_merge_valid {x m : Int} (hx : x ∈ pow2List)
    (hm : m = -1 ∨ m = -2 ∨ m = -4) : x * |m| ∈ pow2ListExt := by
  fin_cases hx <;> rcases hm with rfl | rfl | rfl <;> decide

lemma try_merge_valid {a b : Int} {adj : Bool} {below : List Int}
    {t s : Int} (ha : validTile a) (hb : validTile b)
    (h : try_merge a b adj below = some (t, s)) : validTileExt t := by
  unfold try_merge at h
  by_cases h1 : a > 0 ∧ b > 0 ∧ a = b ∧ a < 65536
  · rw [if_pos h1] at h
    simp only [Option.some.injEq, Prod.mk.injEq] at h
    obtain ⟨ht, -⟩ := h
    obtain ⟨hap, -, hab, hlt⟩ := h1
    subst hab
    exact Or.inr (Or.inl (ht ▸ value_merge_valid (validTile_pos ha hap) hlt))
  · rw [if_neg h1] at h
    by_cases h2 : a < 0 ∧ b < 0 ∧ a = b ∧ a > -4
    · rw [if_pos h2] at h
      simp only [Option.some.injEq, Prod.mk.injEq] at h
      obtain ⟨ht, -⟩ := h
      obtain ⟨han, -, -, hgt⟩ := h2
      rcases validTile_neg ha han with rfl | rfl | rfl
      · exact Or.inr (Or.inr (Or.inr (Or.inl (by omega))))
      · exact Or.inr (Or.inr (Or.inr (Or.inr (by omega))))
      · omega
    · rw [if_neg h2] at h
      by_cases h3 : a * b < 0 ∧ adj = true ∧
          (below.isEmpty = true ∨ ∀ v ∈ below, v ≠ 0)
      · rw [if_pos h3] at h
        rcases mul_neg_iff.mp h3.1 with ⟨hap, hbn⟩ | ⟨han, hbp⟩
        · rw [if_pos hap, if_neg (by omega : ¬a < 0)] at h
          simp only [Option.some.injEq, Prod.mk.injEq] at h
          obtain ⟨ht, -⟩ := h
          exact Or.inr (Or.inl (ht ▸
            cross_merge_valid (validTile_pos ha hap) (validTile_neg hb hbn)))
        · rw [if_neg (by omega : ¬a > 0), if_pos han] at h
          simp only [Option.some.injEq, Prod.mk.injEq] at h
          obtain ⟨ht, -⟩ := h
          exact Or.inr (Or.inl (ht ▸
            cross_merge_valid (validTile_pos hb hbp) (validTile_neg ha han)))
      · rw [if_neg h3] at h
        exact absurd h (by simp)

lemma try_merge_ne_zero {a b : Int} {adj : Bool} {below : List Int}
    {t s : Int} (h : try_merge a b adj below = some (t, s)) : t ≠ 0 := by
  unfold try_merge at h
  by_cases h1 : a > 0 ∧ b > 0 ∧ a = b ∧ a < 65536
  · rw [if_pos h1] at h
    simp only [Option.some.injEq, Prod.mk.injEq] at h
    obtain ⟨ht, -⟩ := h
    omega
  · rw [if_neg h1] at h
    by_cases h2 : a < 0 ∧ b < 0 ∧ a = b ∧ a > -4
    · rw [if_pos h2] at h
      simp only [Option.some.injEq, Prod.mk.injEq] at h
      obtain ⟨ht, -⟩ := h
      omega
    · rw [if_neg h2] at h
      by_cases h3 : a * b < 0 ∧ adj = true ∧
          (below.isEmpty = true ∨ ∀ v ∈ below, v ≠ 0)
      · rw [if_pos h3] at h
        rcases mul_neg_iff.mp h3.1 with ⟨hap, hbn⟩ | ⟨han, hbp⟩
        · rw [if_pos hap, if_neg (by omega : ¬a < 0)] at h
          simp only [Option.some.injEq, Prod.mk.injEq] at h
          obtain ⟨ht, -⟩ := h
          have hpos : 0 < a * |b| := mul_pos hap (abs_pos.mpr (by omega))
          omega
        · rw [if_neg (by omega : ¬a > 0), if_pos han] at h
          simp only [Option.some.injEq, Prod.mk.injEq] at h
          obtain ⟨ht, -⟩ := h
          have hpos : 0 < b * |a| := mul_pos hbp (abs_pos.mpr (by omega))
          omega
      · rw [if_neg h3] at h
        exact absurd h (by simp)

/-! ### Column-slide lemmas -/

/-- Number of non-empty cells of a column list. -/
def countNZ (l : List Int) : Nat := (l.filter (· != 0)).length

lemma dropWhile_cons_head_false {α : Type} (p : α → Bool) :
    ∀ (l : List α) (b : α) (t : List α), l.dropWhile p = b :: t → p b = false := by
  intro l
  induction l with
  | nil => intro b t h; simp at h
  | cons x xs ih =>
    intro b t h
    rw [List.dropWhile_cons] at h
    cases hpx : p x with
    | true => rw [hpx] at h; simp only [if_pos rfl] at h; exact ih b t h
    | false =>
      rw [hpx] at h
      simp only [Bool.false_eq_true, if_false] at h
      obtain ⟨rfl, -⟩ := List.cons.inj h
      exact hpx

lemma getD_zero_or_mem (l : List Int) : ∀ n : Nat, l.getD n 0 = 0 ∨ l.getD n 0 ∈ l := by
  induction l with
  | nil => intro n; left; simp
  | cons a t ih =>
    intro n
    cases n with
    | zero => right; simp [List.getD_cons_zero]
    | succ m =>
      rcases ih m with h | h
      · left; simpa [List.getD_cons_succ] using h
      · right; rw [List.getD_cons_succ]; exact List.mem_cons_of_mem _ h

lemma slideRec_spec (fuel : Nat) :
    ∀ passed rest : List Int, rest.length ≤ fuel →
      (∀ x ∈ (slideRec fuel passed rest).1, x ≠ 0) ∧
      (slideRec fuel passed rest).1.length ≤ countNZ rest ∧
      ((slideRec fuel passed rest).1.length = countNZ rest →
        (slideRec fuel passed rest).2 = 0) := by
  induction fuel with
  | zero =>
    intro passed rest h
    have hnil : rest = [] := List.eq_nil_of_length_eq_zero (Nat.le_zero.mp h)
    subst hnil
    simp [slideRec, countNZ]
  | succ n ih =>
    intro passed rest h
    match rest with
    | [] => simp [slideRec, countNZ]
    | a :: rest' =>
      have hlen' : rest'.length ≤ n := by
        simp only [List.length_cons] at h; omega
      by_cases ha : a = 0
      · have heq : slideRec (n + 1) passed (a :: rest') =
            slideRec n (a :: passed) rest' := by
          simp only [slideRec, if_pos ha]
        have hcnt : countNZ (a :: rest') = countNZ rest' := by
          simp [countNZ, List.filter_cons, ha]
        rw [heq, hcnt]
        exact ih (a :: passed) rest' hlen'
      · have hc1 : countNZ (a :: rest') = 1 + countNZ rest' := by
          simp [countNZ, List.filter_cons, ha]
          omega
        cases hdrop : rest'.dropWhile (· == 0) with
        | nil =>
          have hflt : rest'.filter (· != 0) = [] := by
            rw [List.filter_eq_nil_iff]
            intro x hx
            have := List.dropWhile_eq_nil_iff.mp hdrop x hx
            simpa using this
          have hcnt0 : countNZ rest' = 0 := by simp [countNZ, hflt]
          have heq : slideRec (n + 1) passed (a :: rest') =
              (a :: (slideRec n (a :: passed) rest').1,
               (slideRec n (a :: passed) rest').2) := by
            simp only [slideRec, if_neg ha, hdrop]
          rw [heq]
          obtain ⟨ihnz, ihlen, ihsc⟩ := ih (a :: passed) rest' hlen'
          have ht0 : (slideRec n (a :: passed) rest').1.length = 0 := by omega
          refine ⟨?_, ?_, ?_⟩
          · intro x hx
            rcases List.mem_cons.mp hx with rfl | hx'
            · exact ha
            · exact ihnz x hx'
          · simp only [List.length_cons]; omega
          · intro _
            exact ihsc (by omega)
        | cons b rest3 =>
          have hb0 : ¬b = 0 := by
            have := dropWhile_cons_head_false _ rest' b rest3 hdrop
            simpa using this
          have hfz : (rest'.takeWhile (· == 0)).filter (· != 0) = [] := by
            rw [List.filter_eq_nil_iff]
            intro x hx
            have := List.mem_takeWhile_imp hx
            simpa using this
          have hsplit : rest'.takeWhile (· == 0) ++ b :: rest3 = rest' := by
            rw [← hdrop]
            exact List.takeWhile_append_dropWhile _ _
          have hc2 : countNZ rest' = 1 + countNZ rest3 := by
            rw [← hsplit]
            simp [countNZ, List.filter_append, hfz, List.filter_cons, hb0]
            omega
          have hlen3 : rest3.length ≤ n := by
            have h1 : (rest'.dropWhile (· == 0)).length ≤ rest'.length :=
              (List.dropWhile_sublist _).length_le
            rw [hdrop] at h1
            simp only [List.length_cons] at h1
            omega
          cases hm : try_merge a b (rest'.takeWhile (· == 0)).isEmpty passed with
          | none =>
            have heq : slideRec (n + 1) passed (a :: rest') =
                (a :: (slideRec n (a :: passed) rest').1,
                 (slideRec n (a :: passed) rest').2) := by
              simp only [slideRec, if_neg ha, hdrop, hm]
            rw [heq]
            obtain ⟨ihnz, ihlen, ihsc⟩ := ih (a :: passed) rest' hlen'
            refine ⟨?_, ?_, ?_⟩
            · intro x hx
              rcases List.mem_cons.mp hx with rfl | hx'
              · exact ha
              · exact ihnz x hx'
            · simp only [List.length_cons]; omega
            · intro hEq
              simp only [List.length_cons] at hEq
              exact ihsc (by omega)
          | some ts =>
            obtain ⟨tile, add⟩ := ts
            have heq : slideRec (n + 1) passed (a :: rest') =
                (tile :: (slideRec n
                    (b :: (rest'.takeWhile (· == 0) ++ a :: passed)) rest3).1,
                 (slideRec n
                    (b :: (rest'.takeWhile (· == 0) ++ a :: passed)) rest3).2 + add) := by
              simp only [slideRec, if_neg ha, hdrop, hm]
            rw [heq]
            obtain ⟨ihnz, ihlen, ihsc⟩ :=
              ih (b :: (rest'.takeWhile (· == 0) ++ a :: passed)) rest3 hlen3
            refine ⟨?_, ?_, ?_⟩
            · intro x hx
              rcases List.mem_cons.mp hx with rfl | hx'
              · exact try_merge_ne_zero hm
              · exact ihnz x hx'
            · simp only [List.length_cons]; omega
            · intro hEq
              simp only [List.length_cons] at hEq
              omega

lemma validTile_imp_ext {v : Int} (h : validTile v) : validTileExt v := by
  rcases h with rfl | h | rfl | rfl | rfl
  · exact Or.inl rfl
  · exact Or.inr (Or.inl (by rw [pow2ListExt]; exact List.mem_append_left _ h))
  · exact Or.inr (Or.inr (Or.inl rfl))
  · exact Or.inr (Or.inr (Or.inr (Or.inl rfl)))
  · exact Or.inr (Or.inr (Or.inr (Or.inr rfl)))

lemma slideRec_valid (fuel : Nat) :
    ∀ passed rest : List Int, (∀ x ∈ rest, validTile x) →
      ∀ y ∈ (slideRec fuel passed rest).1, validTileExt y := by
  induction fuel with
  | zero => intro passed rest _ y hy; simp [slideRec] at hy
  | succ n ih =>
    intro passed rest hv y hy
    match rest with
    | [] => simp [slideRec] at hy
    | a :: rest' =>
      have hva : validTile a := hv a (by simp)
      have hv' : ∀ x ∈ rest', validTile x :=
        fun x hx => hv x (List.mem_cons_of_mem _ hx)
      by_cases ha : a = 0
      · rw [show slideRec (n + 1) passed (a :: rest') =
            slideRec n (a :: passed) rest' from by
          simp only [slideRec, if_pos ha]] at hy
        exact ih _ rest' hv' y hy
      · cases hdrop : rest'.dropWhile (· == 0) with
        | nil =>
          rw [show slideRec (n + 1) passed (a :: rest') =
              (a :: (slideRec n (a :: passed) rest').1,
               (slideRec n (a :: passed) rest').2) from by
            simp only [slideRec, if_neg ha, hdrop]] at hy
          rcases List.mem_cons.mp hy with rfl | hy'
          · exact validTile_imp_ext hva
          · exact ih _ rest' hv' y hy'
        | cons b rest3 =>
          have hbmem : b ∈ rest' :=
            (List.dropWhile_sublist (· == 0)).subset
              (by rw [hdrop]; exact List.mem_cons_self _ _)
          have hvb : validTile b := hv' b hbmem
          have hv3 : ∀ x ∈ rest3, validTile x := fun x hx =>
            hv' x ((List.dropWhile_sublist (· == 0)).subset
              (by rw [hdrop]; exact List.mem_cons_of_mem _ hx))
          cases hm : try_merge a b (rest'.takeWhile (· == 0)).isEmpty passed with
          | none =>
            rw [show slideRec (n + 1) passed (a :: rest') =
                (a :: (slideRec n (a :: passed) rest').1,
                 (slideRec n (a :: passed) rest').2) from by
              simp only [slideRec, if_neg ha, hdrop, hm]] at hy
            rcases List.mem_cons.mp hy with rfl | hy'
            · exact validTile_imp_ext hva
            · exact ih _ rest' hv' y hy'
          | some ts =>
            obtain ⟨tile, add⟩ := ts
            rw [show slideRec (n + 1) passed (a :: rest') =
                (tile :: (slideRec n
                    (b :: (rest'.takeWhile (· == 0) ++ a :: passed)) rest3).1,
                 (slideRec n
                    (b :: (rest'.takeWhile (· == 0) ++ a :: passed)) rest3).2 + add)
                from by
              simp only [slideRec, if_neg ha, hdrop, hm]] at hy
            rcases List.mem_cons.mp hy with rfl | hy'
            · exact try_merge_valid hva hvb hm
            · exact ih _ rest3 hv3 y hy'

lemma slide_column_valid {col : Fin 4 → Int} (h : ∀ i, validTile (col i)) :
    ∀ r, validTileExt ((slide_column col).1 r) := by
  intro r
  show validTileExt
    ((slideRec 4 [] [col 3, col 2, col 1, col 0]).1.getD (3 - (r : Nat)) 0)
  have hin : ∀ x ∈ [col 3, col 2, col 1, col 0], validTile x := by
    intro x hx
    simp only [List.mem_cons, List.not_mem_nil, or_false] at hx
    rcases hx with rfl | rfl | rfl | rfl <;> exact h _
  rcases getD_zero_or_mem (slideRec 4 [] [col 3, col 2, col 1, col 0]).1
      (3 - (r : Nat)) with h0 | hmem
  · rw [h0]; exact Or.inl rfl
  · exact slideRec_valid 4 [] _ hin _ hmem

lemma slide_column_fix_score {col : Fin 4 → Int}
    (h : ∀ r, (slide_column col).1 r = col r) : (slide_column col).2 = 0 := by
  obtain ⟨hnz, hlen, hsc⟩ :=
    slideRec_spec 4 [] [col 3, col 2, col 1, col 0] (by simp)
  have h0 : (slideRec 4 [] [col 3, col 2, col 1, col 0]).1.getD 3 0 = col 0 := h 0
  have h1 : (slideRec 4 [] [col 3, col 2, col 1, col 0]).1.getD 2 0 = col 1 := h 1
  have h2 : (slideRec 4 [] [col 3, col 2, col 1, col 0]).1.getD 1 0 = col 2 := h 2
  have h3 : (slideRec 4 [] [col 3, col 2, col 1, col 0]).1.getD 0 0 = col 3 := h 3
  have hcle : countNZ [col 3, col 2, col 1, col 0] ≤ 4 := by
    have := List.length_filter_le (· != 0) [col 3, col 2, col 1, col 0]
    simpa [countNZ] using this
  show (slideRec 4 [] [col 3, col 2, col 1, col 0]).2 = 0
  generalize houts : (slideRec 4 [] [col 3, col 2, col 1, col 0]).1 = outs
    at hnz hlen hsc h0 h1 h2 h3
  apply hsc
  rcases outs with _ | ⟨x0, _ | ⟨x1, _ | ⟨x2, _ | ⟨x3, _ | ⟨x4, tl⟩⟩⟩⟩⟩
  · simp only [List.getD_nil] at h0 h1 h2 h3
    rw [← h0, ← h1, ← h2, ← h3]
    decide
  · have hx0 : x0 ≠ 0 := hnz x0 (by simp)
    simp [countNZ, ← h0, ← h1, ← h2, ← h3, List.filter_cons, hx0]
  · have hx0 : x0 ≠ 0 := hnz x0 (by simp)
    have hx1 : x1 ≠ 0 := hnz x1 (by simp)
    simp [countNZ, ← h0, ← h1, ← h2, ← h3, List.filter_cons, hx0, hx1]
  · have hx0 : x0 ≠ 0 := hnz x0 (by simp)
    have hx1 : x1 ≠ 0 := hnz x1 (by simp)
    have hx2 : x2 ≠ 0 := hnz x2 (by simp)
    simp [countNZ, ← h0, ← h1, ← h2, ← h3, List.filter_cons, hx0, hx1, hx2]
  · have hx0 : x0 ≠ 0 := hnz x0 (by simp)
    have hx1 : x1 ≠ 0 := hnz x1 (by simp)
    have hx2 : x2 ≠ 0 := hnz x2 (by simp)
    have hx3 : x3 ≠ 0 := hnz x3 (by simp)
    simp [countNZ, ← h0, ← h1, ← h2, ← h3, List.filter_cons, hx0, hx1, hx2, hx3]
  · exfalso
    simp only [List.length_cons] at hlen
    omega

lemma rotOf_lt (A : Action) : rotOf A < 4 := by cases A <;> decide

lemma single_step_fix_delta {b : Board} {A : Action}
    (hfix : (single_step b A).1 = b) : (single_step b A).2.1 = 0 := by
  have hnext : rotate
      (fun r c => (slide_column fun i => rotate b (rotOf A) i c).1 r)
      ((4 - rotOf A) % 4) = b := hfix
  have hw2 : (fun r c => (slide_column fun i => rotate b (rotOf A) i c).1 r) =
      rotate b (rotOf A) := by
    have hcong := congrArg (fun x => rotate x (rotOf A)) hnext
    simp only at hcong
    rwa [rotate_inv _ (rotOf_lt A)] at hcong
  have hcol : ∀ c r : Fin 4,
      (slide_column fun i => rotate b (rotOf A) i c).1 r =
        rotate b (rotOf A) r c :=
    fun c r => congrFun (congrFun hw2 r) c
  show (slide_column fun i => rotate b (rotOf A) i 0).2 +
      (slide_column fun i => rotate b (rotOf A) i 1).2 +
      (slide_column fun i => rotate b (rotOf A) i 2).2 +
      (slide_column fun i => rotate b (rotOf A) i 3).2 = 0
  rw [slide_column_fix_score (fun r => hcol 0 r),
    slide_column_fix_score (fun r => hcol 1 r),
    slide_column_fix_score (fun r => hcol 2 r),
    slide_column_fix_score (fun r => hcol 3 r)]
  norm_num

/-! ### Step-level lemmas -/

lemma single_step_victory_eq (b : Board) (A : Action) :
    (single_step b A).2.2 = decide (∃ r c, (single_step b A).1 r c = 65536) := rfl

lemma single_step_valid {b : Board} (hb : validBoard b) (A : Action) :
    ∀ r c, validTileExt ((single_step b A).1 r c) := by
  intro r c
  show validTileExt (rotate
    (fun r c => (slide_column fun i => rotate b (rotOf A) i c).1 r)
    ((4 - rotOf A) % 4) r c)
  apply rotate_pred _ _ (Or.inl rfl)
  intro i j
  exact slide_column_valid
    (fun i2 => @rotate_pred validTile b (rotOf A) (Or.inl rfl) hb i2 j) i

lemma spawn_tile_cases (b : Board) (ic : Nat) (p : ℚ) (r c : Fin 4) :
    spawn_tile b ic p r c = b r c ∨
      spawn_tile b ic p r c = 2 ∨ spawn_tile b ic p r c = 4 ∨
      spawn_tile b ic p r c = -1 ∨ spawn_tile b ic p r c = -2 := by
  simp only [spawn_tile]
  by_cases he : (empties b).isEmpty
  · rw [if_pos he]
    exact Or.inl rfl
  · rw [if_neg he]
    simp only [setCell]
    split_ifs <;> simp

lemma stepCore_fst_not_moved {b : Board} {A : Action} {ic : Nat} {p : ℚ}
    (h : (single_step b A).1 = b) : (stepCore b A ic p).1 = b := by
  simp [stepCore, h]

lemma stepCore_fst_moved {b : Board} {A : Action} {ic : Nat} {p : ℚ}
    (h : (single_step b A).1 ≠ b) :
    (stepCore b A ic p).1 = spawn_tile (single_step b A).1 ic p := by
  simp [stepCore, h]

lemma stepCore_delta (b : Board) (A : Action) (ic : Nat) (p : ℚ) :
    (stepCore b A ic p).2.1 = (single_step b A).2.1 := rfl

lemma stepCore_msg_not_moved {b : Board} {A : Action} {ic : Nat} {p : ℚ}
    (h : (single_step b A).1 = b) :
    (stepCore b A ic p).2.2 =
      if (single_step b A).2.2 then 1
      else if decide (∀ d : Fin 4, (single_step b (idx_to_action d)).1 = b)
      then -1 else 0 := by
  simp [stepCore, h]

lemma stepCore_msg_moved {b : Board} {A : Action} {ic : Nat} {p : ℚ}
    (h : (single_step b A).1 ≠ b) :
    (stepCore b A ic p).2.2 = if (single_step b A).2.2 then 1 else 0 := by
  simp [stepCore, h]

lemma stepCore_valid {b : Board} (hb : validBoard b) (A : Action)
    (ic : Nat) (p : ℚ) : ∀ r c, validTileExt ((stepCore b A ic p).1 r c) := by
  intro r c
  by_cases h : (single_step b A).1 = b
  · rw [stepCore_fst_not_moved h]
    exact validTile_imp_ext (hb r c)
  · rw [stepCore_fst_moved h]
    rcases spawn_tile_cases (single_step b A).1 ic p r c with
      h0 | h2 | h4 | hm1 | hm2
    · rw [h0]; exact single_step_valid hb A r c
    · rw [h2]; decide
    · rw [h4]; decide
    · rw [hm1]; decide
    · rw [hm2]; decide

lemma decodeDir_none_iff (d : Nat) : decodeDir d = none ↔ 4 ≤ d := by
  rcases d with _ | _ | _ | _ | n <;> simp [decodeDir]

lemma decodeDir_lt {d : Nat} (hd : d < 4) : ∃ A, decodeDir d = some A := by
  rcases d with _ | _ | _ | _ | n
  · exact ⟨.Down, rfl⟩
  · exact ⟨.Right, rfl⟩
  · exact ⟨.Up, rfl⟩
  · exact ⟨.Left, rfl⟩
  · omega

lemma stepCore_msg_eq_one_iff (b : Board) (A : Action) (ic : Nat) (p : ℚ) :
    (stepCore b A ic p).2.2 = 1 ↔
      ∃ r c, (single_step b A).1 r c = 65536 := by
  have hvic : (single_step b A).2.2 = true ↔
      ∃ r c, (single_step b A).1 r c = 65536 := by
    rw [single_step_victory_eq]; exact decide_eq_true_iff
  by_cases hmov : (single_step b A).1 = b
  · rw [stepCore_msg_not_moved hmov]
    by_cases hv : (single_step b A).2.2 = true
    · rw [if_pos hv]; exact iff_of_true rfl (hvic.mp hv)
    · rw [if_neg hv]
      refine iff_of_false ?_ (fun hex => hv (hvic.mpr hex))
      split_ifs <;> decide
  · rw [stepCore_msg_moved hmov]
    by_cases hv : (single_step b A).2.2 = true
    · rw [if_pos hv]; exact iff_of_true rfl (hvic.mp hv)
    · rw [if_neg hv]
      exact iff_of_false (by decide) (fun hex => hv (hvic.mpr hex))

lemma stepCore_msg_eq_negone_iff (b : Board) (A : Action) (ic : Nat) (p : ℚ) :
    (stepCore b A ic p).2.2 = -1 ↔
      ((single_step b A).1 = b ∧
        ¬(∃ r c, (single_step b A).1 r c = 65536) ∧
        ∀ i : Fin 4, (single_step b (idx_to_action i)).1 = b) := by
  have hvic : (single_step b A).2.2 = true ↔
      ∃ r c, (single_step b A).1 r c = 65536 := by
    rw [single_step_victory_eq]; exact decide_eq_true_iff
  by_cases hmov : (single_step b A).1 = b
  · rw [stepCore_msg_not_moved hmov]
    by_cases hv : (single_step b A).2.2 = true
    · rw [if_pos hv]
      refine iff_of_false (by decide) ?_
      rintro ⟨-, hno, -⟩
      exact hno (hvic.mp hv)
    · rw [if_neg hv]
      by_cases hall : ∀ i : Fin 4, (single_step b (idx_to_action i)).1 = b
      · rw [if_pos (decide_eq_true hall)]
        exact iff_of_true rfl ⟨hmov, fun hex => hv (hvic.mpr hex), hall⟩
      · rw [if_neg (fun hdec => hall (of_decide_eq_true hdec))]
        refine iff_of_false (by decide) ?_
        rintro ⟨-, -, h⟩
        exact hall h
  · rw [stepCore_msg_moved hmov]
    refine iff_of_false ?_ (fun hx => hmov hx.1)
    split_ifs <;> decide

/-! ### Concrete boards for the claims -/

/-- A valid board holding a `65536` value tile directly above-adjacent to a
`×4` multiplier in the slide direction. -/
def cexBoard : Board :=
  listToBoard [[0, 0, 0, 0], [0, 0, 0, 0], [-4, 0, 0, 0], [65536, 0, 0, 0]]

/-- A valid board whose only tiles are two `-1` multipliers in one column. -/
def negPairBoard : Board :=
  listToBoard [[0, 0, 0, 0], [0, 0, 0, 0], [-1, 0, 0, 0], [-1, 0, 0, 0]]

/-! ### The claims -/

/-- C1, counterexample: the tile domain is NOT preserved by `step`.  On a
valid board holding `65536` above-adjacent to a `-4` multiplier, sliding
down cross-merges them into `65536 * 4 = 262144`, which is outside the
domain of `validate_board`. -/
theorem C1_cex_overflow :
    validBoard cexBoard ∧
    (step cexBoard 0 0 0).map (fun out => out.1 3 0) = some 262144 ∧
    ¬validTile 262144 :=
  ⟨by decide, by decide, by decide⟩

/-- C1, amended: for every board whose cells lie in the tile domain and
every direction code in `{0,1,2,3}`, every cell of the board returned by
`step` lies in the domain extended with the powers of two `131072` and
`262144` (reachable only by a cross merge of a large value tile with a
multiplier); multiplier magnitudes never exceed `4`. -/
theorem C1_step_preserves_extended_domain (b : Board) (d ic : Nat) (p : ℚ)
    (hd : d < 4) (hb : validBoard b) :
    ∃ out, step b d ic p = some out ∧ ∀ r c, validTileExt (out.1 r c) := by
  obtain ⟨A, hA⟩ := decodeDir_lt hd
  refine ⟨stepCore b A ic p, ?_, stepCore_valid hb A ic p⟩
  rw [step, hA]
  rfl

/-- C1 witness: the amended theorem applied to the empty board and
direction 0. -/
theorem C1_witness :
    ∃ out, step board0 0 0 0 = some out ∧ ∀ r c, validTileExt (out.1 r c) :=
  C1_step_preserves_extended_domain board0 0 0 0 (by decide) (by decide)

/-- C2: for every board and direction code in `{0,1,2,3}`, `step` returns
status `1` iff the board after rotate-slide-rotate-back (before any spawn)
contains a `65536` cell; victory takes precedence over defeat and is
unaffected by the spawn. -/
theorem C2_victory_iff_pre_spawn_65536 (b : Board) (d ic : Nat) (p : ℚ)
    (hd : d < 4) :
    ∃ A out, decodeDir d = some A ∧ step b d ic p = some out ∧
      (out.2.2 = 1 ↔ ∃ r c, (single_step b A).1 r c = 65536) := by
  obtain ⟨A, hA⟩ := decodeDir_lt hd
  exact ⟨A, stepCore b A ic p, hA, by rw [step, hA]; rfl,
    stepCore_msg_eq_one_iff b A ic p⟩

/-- C2 witness: the theorem applied to the empty board and direction 0. -/
theorem C2_witness :
    ∃ A out, decodeDir 0 = some A ∧ step board0 0 0 0 = some out ∧
      (out.2.2 = 1 ↔ ∃ r c, (single_step board0 A).1 r c = 65536) :=
  C2_victory_iff_pre_spawn_65536 board0 0 0 0 (by decide)

/-- C3: `step` returns status `-1` exactly when the requested slide leaves
the board unchanged, no cell equals `65536` after the slide, and all four
direction slides leave the board unchanged; in that case the returned
board equals the input and `scoreDelta = 0` (and hence no tile spawned). -/
theorem C3_defeat_iff_stuck (b : Board) (d ic : Nat) (p : ℚ) (hd : d < 4) :
    ∃ A out, decodeDir d = some A ∧ step b d ic p = some out ∧
      (out.2.2 = -1 ↔
        ((single_step b A).1 = b ∧
          ¬(∃ r c, (single_step b A).1 r c = 65536) ∧
          ∀ i : Fin 4, (single_step b (idx_to_action i)).1 = b)) ∧
      (out.2.2 = -1 → out.1 = b ∧ out.2.1 = 0) := by
  obtain ⟨A, hA⟩ := decodeDir_lt hd
  refine ⟨A, stepCore b A ic p, hA, by rw [step, hA]; rfl,
    stepCore_msg_eq_negone_iff b A ic p, ?_⟩
  intro hmsg
  obtain ⟨hmov, -, -⟩ := (stepCore_msg_eq_negone_iff b A ic p).mp hmsg
  exact ⟨stepCore_fst_not_moved hmov,
    (stepCore_delta b A ic p).trans (single_step_fix_delta hmov)⟩

/-- C3 witness: the theorem applied to the empty board and direction 0. -/
theorem C3_witness :
    ∃ A out, decodeDir 0 = some A ∧ step board0 0 0 0 = some out ∧
      (out.2.2 = -1 ↔
        ((single_step board0 A).1 = board0 ∧
          ¬(∃ r c, (single_step board0 A).1 r c = 65536) ∧
          ∀ i : Fin 4, (single_step board0 (idx_to_action i)).1 = board0)) ∧
      (out.2.2 = -1 → out.1 = board0 ∧ out.2.1 = 0) :=
  C3_defeat_iff_stuck board0 0 0 0 (by decide)

/-- C4: if the rotate-slide-rotate-back result equals the input board, then
`step` spawns no tile, returns the input board unchanged, and returns
`scoreDelta = 0`. -/
theorem C4_invalid_move_noop (b : Board) (d ic : Nat) (p : ℚ) (A : Action)
    (hA : decodeDir d = some A) (hfix : (single_step b A).1 = b) :
    ∃ msg, step b d ic p = some (b, 0, msg) := by
  refine ⟨(stepCore b A ic p).2.2, ?_⟩
  rw [step, hA]
  have h1 := @stepCore_fst_not_moved b A ic p hfix
  have h2 := (stepCore_delta b A ic p).trans (single_step_fix_delta hfix)
  have hall : stepCore b A ic p = (b, 0, (stepCore b A ic p).2.2) :=
    Prod.ext_iff.mpr ⟨h1, Prod.ext_iff.mpr ⟨h2, rfl⟩⟩
  exact congrArg some hall

/-- C4 witness: the theorem applied to the empty board (fixed by every
slide) and direction 0. -/
theorem C4_witness : ∃ msg, step board0 0 0 0 = some (board0, 0, msg) :=
  C4_invalid_move_noop board0 0 0 0 .Down rfl (by decide)

/-- C5: `rotate` satisfies the rotation algebra: rotating by 0 is the
identity, rotating by `k` then by `(4 - k) % 4` restores the board, and
composing two rotations rotates by the sum mod 4. -/
theorem C5_rotate_algebra (b : Board) (j k : Nat) (hj : j < 4) (hk : k < 4) :
    rotate b 0 = b ∧ rotate (rotate b k) ((4 - k) % 4) = b ∧
    rotate (rotate b j) k = rotate b ((j + k) % 4) := by
  refine ⟨rotate_zero b, ?_, rotate_comp b j k⟩
  rw [rotate_comp]
  have h : (k + (4 - k) % 4) % 4 = 0 := by omega
  rw [h, rotate_zero]

/-- C5 witness: the theorem applied to the empty board with `j = 1`,
`k = 2`. -/
theorem C5_witness :
    rotate board0 0 = board0 ∧
    rotate (rotate board0 2) ((4 - 2) % 4) = board0 ∧
    rotate (rotate board0 1) 2 = rotate board0 ((1 + 2) % 4) :=
  C5_rotate_algebra board0 1 2 (by decide) (by decide)

/-- C6: two equal positive tiles `v < 65536` merge to `v + v` with score
contribution `v + v`; `slide_column` on `[2,2,0,0]` gives `([0,0,0,4], 4)`,
and on `[4,2,2,0]` the merged `4` does not merge again in the same pass. -/
theorem C6_value_merge :
    (∀ (v : Int) (adj : Bool) (below : List Int), 0 < v → v < 65536 →
        try_merge v v adj below = some (v + v, v + v)) ∧
    slide_column (colOfList [2, 2, 0, 0]) = (colOfList [0, 0, 0, 4], 4) ∧
    slide_column (colOfList [4, 2, 2, 0]) = (colOfList [0, 0, 4, 4], 4) := by
  refine ⟨?_, by decide, by decide⟩
  intro v adj below hv hlt
  unfold try_merge
  rw [if_pos ⟨hv, hv, rfl, hlt⟩]

/-- C6 witness: the merge rule applied to a pair of `2` tiles. -/
theorem C6_witness : try_merge 2 2 true [] = some (4, 4) :=
  C6_value_merge.1 2 true [] (by decide) (by decide)

/-- C7: equal multiplier tiles double in magnitude only below the ×4 cap:
`-1` pairs merge to `-2`, `-2` pairs to `-4`, `-4` pairs never merge, and
the score contribution is the merged (negative) value. -/
theorem C7_multiplier_merge :
    (∀ (adj : Bool) (below : List Int),
        try_merge (-1) (-1) adj below = some (-2, -2) ∧
        try_merge (-2) (-2) adj below = some (-4, -4) ∧
        try_merge (-4) (-4) adj below = none) ∧
    slide_column (colOfList [0, 0, -1, -1]) = (colOfList [0, 0, 0, -2], -2) ∧
    slide_column (colOfList [0, 0, -2, -2]) = (colOfList [0, 0, 0, -4], -4) ∧
    slide_column (colOfList [0, 0, -4, -4]) =
      (colOfList [0, 0, -4, -4], 0) := by
  refine ⟨?_, by decide, by decide, by decide⟩
  intro adj below
  refine ⟨?_, ?_, ?_⟩
  · unfold try_merge
    rw [if_neg (by rintro ⟨h, -⟩; norm_num at h),
      if_pos ⟨by norm_num, by norm_num, rfl, by norm_num⟩]
    norm_num
  · unfold try_merge
    rw [if_neg (by rintro ⟨h, -⟩; norm_num at h),
      if_pos ⟨by norm_num, by norm_num, rfl, by norm_num⟩]
    norm_num
  · unfold try_merge
    rw [if_neg (by rintro ⟨h, -⟩; norm_num at h),
      if_neg (by rintro ⟨-, -, -, h⟩; norm_num at h),
      if_neg (by rintro ⟨h, -⟩; norm_num at h)]

/-- C7 witness: the cap rule applied to a pair of `-1` tiles. -/
theorem C7_witness : try_merge (-1) (-1) true [] = some (-2, -2) :=
  (C7_multiplier_merge.1 true []).1

/-- C8: a value and a multiplier tile merge exactly when the pair has
opposite signs, is adjacent, and every cell strictly between the near tile
and the slide edge is non-empty; the merged tile and score are
`value * |multiplier|`; sliding `4` directly into `-2` gives `8`. -/
theorem C8_cross_merge :
    (∀ (a b : Int) (adj : Bool) (below : List Int),
        ((0 < a ∧ b < 0) ∨ (a < 0 ∧ 0 < b)) →
        (try_merge a b adj below ≠ none ↔
          (adj = true ∧ ∀ v ∈ below, v ≠ 0))) ∧
    (∀ (a b : Int) (adj : Bool) (below : List Int) (t s : Int),
        ((0 < a ∧ b < 0) ∨ (a < 0 ∧ 0 < b)) →
        try_merge a b adj below = some (t, s) →
        t = (if a > 0 then a else b) * |if a < 0 then a else b| ∧ s = t) ∧
    slide_column (colOfList [0, 0, 4, -2]) = (colOfList [0, 0, 0, 8], 8) := by
  have hno12 : ∀ a b : Int, ((0 < a ∧ b < 0) ∨ (a < 0 ∧ 0 < b)) →
      ¬(a > 0 ∧ b > 0 ∧ a = b ∧ a < 65536) ∧
      ¬(a < 0 ∧ b < 0 ∧ a = b ∧ a > -4) := by
    intro a b hsign
    constructor
    · rintro ⟨ha, hb2, -, -⟩
      rcases hsign with ⟨-, h⟩ | ⟨h, -⟩ <;> omega
    · rintro ⟨ha, hb2, -, -⟩
      rcases hsign with ⟨h, -⟩ | ⟨-, h⟩ <;> omega
  refine ⟨?_, ?_, by decide⟩
  · intro a b adj below hsign
    have hprod : a * b < 0 := mul_neg_iff.mpr hsign
    obtain ⟨h1, h2⟩ := hno12 a b hsign
    unfold try_merge
    rw [if_neg h1, if_neg h2]
    by_cases h3 : a * b < 0 ∧ adj = true ∧
        (below.isEmpty = true ∨ ∀ v ∈ below, v ≠ 0)
    · rw [if_pos h3]
      refine iff_of_true (by simp) ⟨h3.2.1, ?_⟩
      rcases h3.2.2 with he | hall
      · rcases below with _ | ⟨x, xs⟩
        · intro v hv; simp at hv
        · simp at he
      · exact hall
    · rw [if_neg h3]
      refine iff_of_false (by simp) ?_
      rintro ⟨hadj, hall⟩
      exact h3 ⟨hprod, hadj, Or.inr hall⟩
  · intro a b adj below t s hsign h
    obtain ⟨h1, h2⟩ := hno12 a b hsign
    unfold try_merge at h
    rw [if_neg h1, if_neg h2] at h
    by_cases h3 : a * b < 0 ∧ adj = true ∧
        (below.isEmpty = true ∨ ∀ v ∈ below, v ≠ 0)
    · rw [if_pos h3] at h
      simp only [Option.some.injEq, Prod.mk.injEq] at h
      exact ⟨h.1.symm, h.2.symm.trans h.1⟩
    · rw [if_neg h3] at h
      exact absurd h (by simp)

/-- C8 witness: the gap condition applied to `4` sliding into `-2`. -/
theorem C8_witness :
    try_merge 4 (-2) true [] ≠ none ↔
      (true = true ∧ ∀ v ∈ ([] : List Int), v ≠ 0) :=
  C8_cross_merge.1 4 (-2) true [] (Or.inl (by norm_num))

/-- C9: `stepRaw` fails exactly when the raw matrix is not 4 rows of 4
integers or the direction code is outside `{0,1,2,3}`; direction `9` and a
3-row board each fail, and an error produces no board at all. -/
theorem C9_step_errors :
    (∀ (raw : List (List Int)) (d ic : Nat) (p : ℚ),
        (∃ e, stepRaw raw d ic p = .error e) ↔
          ((raw.length ≠ 4 ∨ ∃ row ∈ raw, row.length ≠ 4) ∨ 4 ≤ d)) ∧
    stepRaw [[0, 0, 0, 0], [0, 0, 0, 0], [0, 0, 0, 0], [0, 0, 0, 0]] 9 0 0 =
      .error "direction must be 0-3" ∧
    stepRaw [[0, 0, 0, 0], [0, 0, 0, 0], [0, 0, 0, 0]] 0 0 0 =
      .error "board must be 4×4" := by
  refine ⟨?_, rfl, rfl⟩
  intro raw d ic p
  by_cases hs : raw.length ≠ 4 ∨ ∃ row ∈ raw, row.length ≠ 4
  · rw [stepRaw, if_pos hs]
    exact iff_of_true ⟨_, rfl⟩ (Or.inl hs)
  · rw [stepRaw, if_neg hs]
    by_cases hd : 4 ≤ d
    · rw [show step (listToBoard raw) d ic p = none from by
        rw [step, (decodeDir_none_iff d).mpr hd]; rfl]
      exact iff_of_true ⟨_, rfl⟩ (Or.inr hd)
    · obtain ⟨A, hA⟩ := @decodeDir_lt d (by omega)
      rw [show step (listToBoard raw) d ic p =
          some (stepCore (listToBoard raw) A ic p) from by rw [step, hA]; rfl]
      refine iff_of_false ?_ ?_
      · rintro ⟨e, he⟩
        exact Except.noConfusion he
      · rintro (h | h)
        · exact hs h
        · exact hd h

/-- C9 witness: the error characterization applied to the empty matrix. -/
theorem C9_witness :
    (∃ e, stepRaw [] 0 0 0 = .error e) ↔
      ((([] : List (List Int)).length ≠ 4 ∨
        ∃ row ∈ ([] : List (List Int)), row.length ≠ 4) ∨ 4 ≤ 0) :=
  C9_step_errors.1 [] 0 0 0

/-- C10: `step` can return a strictly negative score delta: on a valid
board whose only tiles are two `-1` multipliers in one column, sliding
down merges them into `-2` and returns `scoreDelta = -2 < 0`. -/
theorem C10_negative_score_delta :
    validBoard negPairBoard ∧
    ∃ out, step negPairBoard 0 0 0 = some out ∧
      out.2.1 = -2 ∧ out.2.1 < 0 :=
  ⟨by decide,
    ⟨stepCore negPairBoard .Down 0 0, rfl, by decide, by decide⟩⟩

end Akioi
